import Mathlib

/-!
Shallow embedding of the SPI case-table bot's classification and ranking
engine (src/run_bot.py).  Pure logic is translated directly; the pywikibot
I/O layer (page retrieval, category objects, revision generators, the
TimeStripper heuristic, strftime formatting) is abstracted at its
interface: category objects become their title strings, revisions become
records of (user, formatted timestamp, summary), and the timestamp
heuristic becomes an abstract function parameter.
-/

namespace SpiBot

/-! ## CategoryStatusResolver: get_status_from_categories (lines 87-147) -/

/-- The fixed `cat2status` dict (lines 98-114) as its (key, value) pairs,
in source order; the 15 keys are distinct. -/
def cat2statusTable : List (String × String) :=
  [("SPI cases currently being checked", "inprogress"),
   ("SPI cases awaiting a CheckUser", "endorsed"),
   ("SPI cases relisted for a CheckUser", "relist"),
   ("SPI cases requesting a checkuser", "CUrequest"),
   ("SPI cases needing an Administrator", "admin"),
   ("SPI cases needing a Clerk", "clerk"),
   ("SPI cases CU complete", "checked"),
   ("New SPI cases", "new"),
   ("SPI cases awaiting review", "open"),
   ("SPI cases declined for checkuser by CU", "cudeclined"),
   ("SPI cases declined for checkuser by clerk", "declined"),
   ("SPI cases requesting more information", "moreinfo"),
   ("SPI cases on hold by checkuser", "cuhold"),
   ("SPI cases on hold by clerk", "hold"),
   ("SPI cases awaiting archive", "close")]

/-- Python dict membership / indexing of `cat2status`, as an Option-valued
lookup over the pair list. -/
def cat2status (t : String) : Option String :=
  (cat2statusTable.find? (fun p => p.1 == t)).map (fun p => p.2)

/-- One iteration of the mapping loop (lines 121-126): the compound
pre-CheckUser-review rule fires first, otherwise the table lookup. -/
def mapStatus (cat_titles : List String) (title : String) : Option String :=
  if title = "SPI cases requesting more information" ∧
     "SPI cases for pre-CheckUser review" ∈ cat_titles
  then some "cumoreinfo"
  else cat2status title

/-- The `statuses` list accumulated by the loop at lines 120-126. -/
def mappedStatuses (cat_titles : List String) : List String :=
  cat_titles.filterMap (mapStatus cat_titles)

/-- The `priority` list of always-shown statuses (line 130). -/
def priorityList : List String := ["clerk", "admin", "checked", "close"]

/-- The `curequest` rank dict (line 132): membership and rank in one map. -/
def curequestRank (s : String) : Option Nat :=
  if s = "inprogress" then some 0
  else if s = "relist" then some 1
  else if s = "endorsed" then some 2
  else if s = "CUrequest" then some 3
  else none

/-- The `misc` rank dict (line 134). -/
def miscRank (s : String) : Option Nat :=
  if s = "new" then some 0
  else if s = "open" then some 1
  else if s = "cudeclined" then some 2
  else if s = "declined" then some 3
  else if s = "cumoreinfo" then some 4
  else if s = "moreinfo" then some 5
  else if s = "cuhold" then some 6
  else if s = "hold" then some 7
  else none

/-- Python `min(x :: xs, key = f)`: the first element attaining the minimal
key (later elements replace the accumulator only on strictly smaller key). -/
def minByKey (f : String → Nat) (x : String) (xs : List String) : String :=
  xs.foldl (fun acc y => if f y < f acc then y else acc) x

/-- The `result` sub-list built by the `status in priority` branch of the
partition loop (lines 136-138); the elif chain makes the three buckets
order-preserving filters of `statuses`. -/
def prioritySelected (statuses : List String) : List String :=
  statuses.filter (fun s => decide (s ∈ priorityList))

/-- The `curequest_only` bucket (lines 139-140); the elif guard keeps the
branches literally disjoint. -/
def curequestOnly (statuses : List String) : List String :=
  statuses.filter (fun s => decide (s ∉ priorityList ∧ (curequestRank s).isSome))

/-- The `misc_only` bucket (lines 141-142). -/
def miscOnly (statuses : List String) : List String :=
  statuses.filter
    (fun s => decide (s ∉ priorityList ∧ (curequestRank s).isNone ∧ (miscRank s).isSome))

/-- The `result` list after the `if curequest_only:` append (lines 143-144). -/
def resultAfterCu (statuses : List String) : List String :=
  prioritySelected statuses ++
    match curequestOnly statuses with
    | [] => []
    | x :: xs => [minByKey (fun s => (curequestRank s).getD 99) x xs]

/-- The function `get_status_from_categories` (lines 87-147) on the extracted category
titles: map the titles, partition into the three buckets, append the
minimal curequest status, then the minimal misc status under the
empty-or-only-close guard (line 145). -/
def get_status_from_categories (cat_titles : List String) : List String :=
  let statuses := mappedStatuses cat_titles
  let r1 := resultAfterCu statuses
  match miscOnly statuses with
  | [] => r1
  | x :: xs =>
    if r1 = [] ∨ r1 = ["close"]
    then r1 ++ [minByKey (fun s => (miscRank s).getD 99) x xs]
    else r1

/-! ## AttributionScanner: lines 169-194 of get_case_details

A revision carries its author, its already-formatted timestamp (the
strftime call of the source is absorbed into the stored string, which the
scanner returns unaltered), and its edit summary. -/

structure Rev where
  user : String
  timestamp : String
  comment : String

/-- Python `str.lower()` as a character-wise map over the string's
characters. -/
def toLowerStr (s : String) : String := ⟨s.data.map Char.toLower⟩

/-- Python substring test `needle in hay` on the character sequences. -/
def containsSub (hay needle : String) : Bool :=
  hay.toList.tails.any (fun t => needle.toList.isPrefixOf t)

/-- The boundary test of line 188: the lowercased edit summary contains
the phrase for an archival action or for a case-move action. -/
def isBoundarySummary (comment : String) : Bool :=
  containsSub (toLowerStr comment) "archiv" ||
    containsSub (toLowerStr comment) "moving case"

/-- The `for rev in revisions` loop (lines 186-194): boundary test first,
then the privileged-author test, else continue with the older edits. -/
def scanForClerk (clerks : List String) : List Rev → String × String
  | [] => ("", "")
  | r :: rs =>
    if isBoundarySummary r.comment then ("", "")
    else if r.user ∈ clerks then (r.user, r.timestamp)
    else scanForClerk clerks rs

/-- Lines 180-194: `last_rev` is the newest revision (drawn first from the
generator); if its author is privileged return it at once, otherwise scan
the remaining, older revisions. -/
def get_last_clerk (clerks : List String) (last_rev : Rev) (older : List Rev) :
    String × String :=
  if last_rev.user ∈ clerks then (last_rev.user, last_rev.timestamp)
  else scanForClerk clerks older

/-! ## TimestampExtractor: lines 204-214 of get_case_details

`ts.timestripper` (pywikibot TimeStripper) composed with the strftime
formatting is an external heuristic, taken as a function parameter
returning the formatted time when the line carries a timestamp signature. -/

/-- The `for line in case_lines` loop of lines 207-210: the final value of
the variable `time` is the heuristic's answer on the first matching line,
and None when no line matches (on a nonempty line list the variable always
ends up assigned; `split` never yields an empty list). -/
def findTime (heuristic : String → Option String) : List String → Option String
  | [] => none
  | l :: ls =>
    match heuristic l with
    | some t => some t
    | none => findTime heuristic ls

/-- Lines 204-214: split the page text on newlines exactly as
`text.split('\n')` does, take the first heuristic match, and fall back to
the sentinel when `time` is falsy. -/
def get_file_time (heuristic : String → Option String) (text : String) : String :=
  match findTime heuristic (text.splitOn "\n") with
  | some t => t
  | none => "Unknown"

/-! ## CaseRecord, table rendering, sorting -/

/-- A finished table row's data: the `case` dict after the status fan-out,
with a single status string (lines 221-230 consume exactly these keys). -/
structure Case where
  name : String
  status : String
  file_time : String
  last_user : String
  last_user_time : String
  last_clerk : String
  last_clerk_time : String
deriving DecidableEq, Repr

/-- The row renderer `format_table_row` (lines 221-230). -/
def format_table_row (c : Case) : String :=
  "\x7b\x7b" ++
    "SPIstatusentry|" ++ c.name ++ "|" ++ c.status ++ "|" ++ c.file_time ++ "|" ++
      c.last_user ++ "|" ++ c.last_user_time ++ "|" ++ c.last_clerk ++ "|" ++
      c.last_clerk_time ++
    "\x7d\x7d\n"

/-- The table renderer `generate_case_table` (lines 233-241): header, one row per case, the
table-footer marker, and, when there were no cases, the no-cases template
appended at the very end. -/
def generate_case_table (cases : List Case) : String :=
  let result := "\x7b\x7bSPIstatusheader\x7d\x7d\n"
  let result := cases.foldl (fun acc c => acc ++ format_table_row c) result
  let result := result ++ "|\x7d"
  if cases.length = 0 then result ++ "\x7b\x7bUser:Mz7/SPI 0\x7d\x7d" else result

/-- The row body of the rendered table: one row per record, in order. -/
def rowsBlock : List Case → String
  | [] => ""
  | c :: cs => format_table_row c ++ rowsBlock cs

/-- The `rank` dict of `sort_cases` (lines 248-266); `none` models the
KeyError a status outside the 17 keys would raise. -/
def statusRank (s : String) : Option Nat :=
  if s = "inprogress" then some 0
  else if s = "endorsed" then some 1
  else if s = "relist" then some 2
  else if s = "QUICK" then some 3
  else if s = "CUrequest" then some 4
  else if s = "admin" then some 5
  else if s = "clerk" then some 6
  else if s = "checked" then some 7
  else if s = "new" then some 8
  else if s = "open" then some 9
  else if s = "cudeclined" then some 10
  else if s = "declined" then some 11
  else if s = "cumoreinfo" then some 12
  else if s = "moreinfo" then some 13
  else if s = "cuhold" then some 14
  else if s = "hold" then some 15
  else if s = "close" then some 16
  else none

/-- The key tuple `(rank[case['status']], case['file_time'])` of line 267,
as a plain pair; the default 17 is never reached on inputs `sort_cases`
accepts (every rank is then defined). -/
def sortKeyPair (c : Case) : Nat × String := ((statusRank c.status).getD 17, c.file_time)

/-- Python's tuple comparison on the key: lexicographic on (Nat, String),
the strings compared lexicographically by code point exactly as Python
compares them (the sentinel Unknown gets no special-casing). -/
def caseLE (a b : Case) : Prop := toLex (sortKeyPair a) ≤ toLex (sortKeyPair b)

instance : DecidableRel caseLE := fun a b =>
  inferInstanceAs (Decidable (toLex (sortKeyPair a) ≤ toLex (sortKeyPair b)))

instance : IsTotal Case caseLE :=
  ⟨fun a b => le_total (toLex (sortKeyPair a)) (toLex (sortKeyPair b))⟩

instance : IsTrans Case caseLE := ⟨fun _ _ _ hab hbc => le_trans hab hbc⟩

/-- The ranking step `sort_cases` (lines 244-267).  `sorted` first computes every key —
raising KeyError (modelled as `none`) if some status is outside the rank
table — then stably sorts ascending by key; any stable sort by the same
total preorder produces the same sequence, here insertion sort. -/
def sort_cases (cases : List Case) : Option (List Case) :=
  if cases.all (fun c => (statusRank c.status).isSome)
  then some (List.insertionSort caseLE cases)
  else none

/-! ## CaseRecordBuilder: the fan-out loop of get_all_cases (lines 270-289) -/

/-- The `case` dict as returned by `get_case_details`: same fields as
`Case` but with the full resolved status list. -/
structure CaseDetails where
  name : String
  status : List String
  file_time : String
  last_user : String
  last_user_time : String
  last_clerk : String
  last_clerk_time : String

/-- Python `case.copy()` with `case_copy['status'] = status`. -/
def caseRecordOf (d : CaseDetails) (s : String) : Case :=
  { name := d.name, status := s, file_time := d.file_time,
    last_user := d.last_user, last_user_time := d.last_user_time,
    last_clerk := d.last_clerk, last_clerk_time := d.last_clerk_time }

/-- The body of the `for page in gen` loop for one case (lines 276-287):
more than one status fans out one copy per status; otherwise the single
status is taken by index, and the IndexError on an empty list is caught,
emitting nothing. -/
def buildRecords (d : CaseDetails) : List Case :=
  if d.status.length > 1 then
    d.status.map (caseRecordOf d)
  else
    match d.status with
    | [] => []
    | s :: _ => [caseRecordOf d s]

/-- The whole `for page in gen` loop (lines 274-287): each case appends its
records to `cases` and the loop continues with the remaining cases. -/
def collectCases : List CaseDetails → List Case
  | [] => []
  | d :: ds => buildRecords d ++ collectCases ds

/-! ## get_cu_needed_templates (lines 292-316) -/

/-- A page of Category:Requests for checkuser at its interface: title,
namespace number, and the formatted time of its last edit. -/
structure CuPage where
  title : String
  ns : Int
  editTime : String

/-- The record literal of lines 301-311. -/
def cuTemplateCase (p : CuPage) : Case :=
  { name := "link=" ++ p.title ++ "#checkuser_needed|CU needed: " ++ p.title,
    status := "QUICK",
    file_time := p.editTime,
    last_user := "", last_user_time := "",
    last_clerk := "", last_clerk_time := "" }

/-- The feed reader `get_cu_needed_templates` (lines 292-316): skip pages in the User (2)
and Template (10) namespaces, and build a QUICK record for each other page. -/
def get_cu_needed_templates (pages : List CuPage) : List Case :=
  (pages.filter (fun p => decide (¬(p.ns = 2 ∨ p.ns = 10)))).map cuTemplateCase

/-- The pipeline `get_all_cases` (lines 270-289) downstream of the per-page retrieval:
fan out every case's records, append the checkuser-needed records, and
sort. -/
def get_all_cases (details : List CaseDetails) (cuPages : List CuPage) :
    Option (List Case) :=
  sort_cases (collectCases details ++ get_cu_needed_templates cuPages)

/-! ## Concrete data used by the witness instantiations -/

/-- A closed case record. -/
def cA : Case := ⟨"A", "close", "2024-01-02 00:00", "", "", "", ""⟩

/-- An in-progress case record. -/
def cB : Case := ⟨"B", "inprogress", "2024-01-03 00:00", "", "", "", ""⟩

/-- A two-status case as produced by get_case_details. -/
def dAB : CaseDetails :=
  ⟨"D", ["clerk", "CUrequest"], "2024-01-04 00:00", "U", "t", "C", "tc"⟩

/-- A concrete timestamp heuristic standing in for the TimeStripper: it
recognizes exactly one line. -/
def sigHeuristic (l : String) : Option String :=
  if l = "filed line" then some "2024-05-01 12:00" else none

/-! ## Theorems -/

/-- C5: whenever the newest edit's author is privileged, the scanner
returns that author and that edit's timestamp at once, for every tail of
older edits and hence without inspecting any summary — including the
newest edit's own, boundary phrase or not. -/
theorem attribution_newest_privileged (clerks : List String) (last_rev : Rev)
    (older : List Rev) (h : last_rev.user ∈ clerks) :
    get_last_clerk clerks last_rev older = (last_rev.user, last_rev.timestamp) := by
  simp [get_last_clerk, h]

theorem attribution_newest_privileged_witness :
    ("P" : String) ∈ ["P"] ∧
      get_last_clerk ["P"]
          { user := "P", timestamp := "t1", comment := "archived case" }
          [{ user := "X", timestamp := "t0", comment := "c" }] = ("P", "t1") :=
  ⟨by decide,
    attribution_newest_privileged ["P"]
      { user := "P", timestamp := "t1", comment := "archived case" }
      [{ user := "X", timestamp := "t0", comment := "c" }] (by decide)⟩

/-- C4: when the newest edit's author is not privileged and the scan of
the older edits reaches an edit whose summary matches a boundary phrase
(every edit strictly between being neither a boundary nor by a privileged
author), the scanner returns the empty pair, whatever edits lie at or
beyond the boundary — so no author at or past the boundary is ever
attributed. -/
theorem attribution_boundary_stops (clerks : List String) (last_rev : Rev)
    (pre : List Rev) (b : Rev) (post : List Rev)
    (hn : last_rev.user ∉ clerks)
    (hpre : ∀ r ∈ pre, isBoundarySummary r.comment = false ∧ r.user ∉ clerks)
    (hb : isBoundarySummary b.comment = true) :
    get_last_clerk clerks last_rev (pre ++ b :: post) = ("", "") := by
  simp only [get_last_clerk, if_neg hn]
  induction pre with
  | nil => simp [scanForClerk, hb]
  | cons r rs ih =>
    have hr := hpre r (List.mem_cons_self r rs)
    simp only [List.cons_append, scanForClerk, hr.1, Bool.false_eq_true, if_false,
      if_neg hr.2]
    exact ih fun q hq => hpre q (List.mem_cons_of_mem r hq)

theorem attribution_boundary_stops_witness :
    ("N" : String) ∉ ["P2"] ∧
      (∀ r ∈ ([] : List Rev), isBoundarySummary r.comment = false ∧ r.user ∉ ["P2"]) ∧
      isBoundarySummary "Archiving case to X" = true ∧
      get_last_clerk ["P2"] { user := "N", timestamp := "t3", comment := "reply" }
          ([] ++ { user := "Q", timestamp := "t2", comment := "Archiving case to X" } ::
            [{ user := "P2", timestamp := "t1", comment := "earlier comment" }]) =
        ("", "") :=
  ⟨by decide, by simp, by decide,
    attribution_boundary_stops ["P2"]
      { user := "N", timestamp := "t3", comment := "reply" } []
      { user := "Q", timestamp := "t2", comment := "Archiving case to X" }
      [{ user := "P2", timestamp := "t1", comment := "earlier comment" }]
      (by decide) (by simp) (by decide)⟩

/-- C9 counterexample: on the empty collection the fallback marker is
appended after the footer marker, not placed between header and footer. -/
theorem generate_case_table_empty_counterexample :
    generate_case_table [] =
        "\x7b\x7bSPIstatusheader\x7d\x7d\n|\x7d\x7b\x7bUser:Mz7/SPI 0\x7d\x7d" ∧
      generate_case_table [] ≠
        "\x7b\x7bSPIstatusheader\x7d\x7d\n\x7b\x7bUser:Mz7/SPI 0\x7d\x7d|\x7d" :=
  ⟨by decide, by decide⟩

theorem foldl_append_rows (l : List Case) (s : String) :
    l.foldl (fun acc c => acc ++ format_table_row c) s = s ++ rowsBlock l := by
  induction l generalizing s with
  | nil => simp [rowsBlock]
  | cons c cs ih => simp [rowsBlock, List.foldl_cons, ih, String.append_assoc]

/-- C9 amended: the output is the header marker, then the row body, then
the footer marker, and on an empty collection the fallback marker is
appended after the footer (not substituted for the body). -/
theorem generate_case_table_shape (cases : List Case) :
    generate_case_table cases =
      "\x7b\x7bSPIstatusheader\x7d\x7d\n" ++ rowsBlock cases ++ "|\x7d" ++
        (if cases = [] then "\x7b\x7bUser:Mz7/SPI 0\x7d\x7d" else "") := by
  simp only [generate_case_table, foldl_append_rows]
  cases cases with
  | nil => simp [rowsBlock]
  | cons c cs => simp [String.append_assoc]

theorem cat2status_eq_some {t c : String} (h : cat2status t = some c) :
    ∃ p ∈ cat2statusTable, p.1 = t ∧ p.2 = c := by
  unfold cat2status at h
  rcases Option.map_eq_some'.mp h with ⟨p, hfind, hpc⟩
  refine ⟨p, List.mem_of_find?_eq_some hfind, ?_, hpc⟩
  simpa using List.find?_some hfind

theorem cat2status_inj {a b c : String} (ha : cat2status a = some c)
    (hb : cat2status b = some c) : a = b := by
  obtain ⟨p, hp, hp1, hp2⟩ := cat2status_eq_some ha
  obtain ⟨q, hq, hq1, hq2⟩ := cat2status_eq_some hb
  have key : ∀ p ∈ cat2statusTable, ∀ q ∈ cat2statusTable, p.2 = q.2 → p.1 = q.1 := by
    decide
  rw [← hp1, ← hq1]
  exact key p hp q hq (hp2.trans hq2.symm)

theorem cat2status_ne_cumoreinfo (t : String) : cat2status t ≠ some "cumoreinfo" := by
  intro h
  obtain ⟨p, hp, _, hp2⟩ := cat2status_eq_some h
  have hv : ∀ p ∈ cat2statusTable, p.2 ≠ "cumoreinfo" := by decide
  exact hv p hp hp2

theorem mapStatus_inj (ct : List String) (a b c : String)
    (ha : c ∈ mapStatus ct a) (hb : c ∈ mapStatus ct b) : a = b := by
  simp only [mapStatus, Option.mem_def] at ha hb
  split_ifs at ha hb with h1 h2 h2
  · exact h1.1.trans h2.1.symm
  · exact absurd (hb.trans (by simpa using ha.symm)) (cat2status_ne_cumoreinfo b)
  · exact absurd (ha.trans (by simpa using hb.symm)) (cat2status_ne_cumoreinfo a)
  · exact cat2status_inj ha hb

theorem mappedStatuses_nodup {ct : List String} (h : ct.Nodup) :
    (mappedStatuses ct).Nodup :=
  List.Nodup.filterMap (fun a a' b hb hb' => mapStatus_inj ct a a' b hb hb') h

theorem prioritySelected_length_le {l : List String} (h : l.Nodup) :
    (prioritySelected l).length ≤ 4 := by
  have hnd : (prioritySelected l).Nodup := h.filter _
  have hsub : prioritySelected l ⊆ priorityList := by
    intro s hs
    have hmem := List.of_mem_filter hs
    simpa using hmem
  simpa using (hnd.subperm hsub).length_le

theorem resultAfterCu_length_le {l : List String} (h : l.Nodup) :
    (resultAfterCu l).length ≤ 5 := by
  unfold resultAfterCu
  have hp := prioritySelected_length_le h
  cases curequestOnly l with
  | nil => simpa using Nat.le_trans hp (by omega)
  | cons x xs => simp only [List.length_append, List.length_cons, List.length_nil]; omega

/-- C1 counterexample: the tag set carrying all four always-shown tags and
one pipeline tag resolves to five status codes, so the 0-4 bound fails. -/
theorem resolver_five_statuses_counterexample :
    get_status_from_categories
        ["SPI cases needing a Clerk", "SPI cases needing an Administrator",
         "SPI cases CU complete", "SPI cases awaiting archive",
         "SPI cases requesting a checkuser"] =
      ["clerk", "admin", "checked", "close", "CUrequest"] ∧
    (get_status_from_categories
        ["SPI cases needing a Clerk", "SPI cases needing an Administrator",
         "SPI cases CU complete", "SPI cases awaiting archive",
         "SPI cases requesting a checkuser"]).length = 5 :=
  ⟨by decide, by decide⟩

/-- C1 amended: on every duplicate-free tag set the resolver returns an
ordered list of at most 5 status codes (never errors; the empty list is a
valid outcome), the bound 5 being attained. -/
theorem resolver_output_length (ct : List String) (h : ct.Nodup) :
    (get_status_from_categories ct).length ≤ 5 := by
  have hm := mappedStatuses_nodup h
  simp only [get_status_from_categories]
  cases hmi : miscOnly (mappedStatuses ct) with
  | nil => exact resultAfterCu_length_le hm
  | cons x xs =>
    split_ifs with hg
    · rcases hg with hg | hg <;> simp [hg]
    · exact resultAfterCu_length_le hm

theorem resolver_output_length_witness :
    (["SPI cases needing a Clerk", "SPI cases needing an Administrator",
      "SPI cases CU complete", "SPI cases awaiting archive",
      "SPI cases requesting a checkuser"] : List String).Nodup ∧
    (get_status_from_categories
        ["SPI cases needing a Clerk", "SPI cases needing an Administrator",
         "SPI cases CU complete", "SPI cases awaiting archive",
         "SPI cases requesting a checkuser"]).length ≤ 5 :=
  ⟨by decide,
    resolver_output_length
      ["SPI cases needing a Clerk", "SPI cases needing an Administrator",
       "SPI cases CU complete", "SPI cases awaiting archive",
       "SPI cases requesting a checkuser"] (by decide)⟩

theorem minByKey_mem (f : String → Nat) (x : String) (xs : List String) :
    minByKey f x xs ∈ x :: xs := by
  induction xs generalizing x with
  | nil => simp [minByKey]
  | cons y ys ih =>
    have hstep : minByKey f x (y :: ys) = minByKey f (if f y < f x then y else x) ys := rfl
    rw [hstep]
    rcases List.mem_cons.mp (ih (if f y < f x then y else x)) with h | h
    · rw [h]
      split_ifs
      · exact List.mem_cons_of_mem x (List.mem_cons_self y ys)
      · exact List.mem_cons_self x (y :: ys)
    · exact List.mem_cons_of_mem x (List.mem_cons_of_mem y h)

theorem minByKey_le (f : String → Nat) (x : String) (xs : List String) :
    ∀ y ∈ x :: xs, f (minByKey f x xs) ≤ f y := by
  induction xs generalizing x with
  | nil =>
    intro y hy
    rcases List.mem_cons.mp hy with rfl | h
    · exact Nat.le_refl _
    · simp at h
  | cons z zs ih =>
    intro y hy
    have hstep : minByKey f x (z :: zs) = minByKey f (if f z < f x then z else x) zs := rfl
    rw [hstep]
    have hacc : f (minByKey f (if f z < f x then z else x) zs) ≤
        f (if f z < f x then z else x) :=
      ih _ _ (List.mem_cons_self _ _)
    rcases List.mem_cons.mp hy with rfl | hy'
    · refine Nat.le_trans hacc ?_
      split_ifs with h
      · exact Nat.le_of_lt h
      · exact Nat.le_refl _
    rcases List.mem_cons.mp hy' with rfl | hy''
    · refine Nat.le_trans hacc ?_
      split_ifs with h
      · exact Nat.le_refl _
      · exact Nat.le_of_not_lt h
    · exact ih _ y (List.mem_cons_of_mem _ hy'')

theorem curequestOnly_not_priority {l : List String} {s : String}
    (h : s ∈ curequestOnly l) : s ∉ priorityList := by
  have hp := List.of_mem_filter h
  simp only [decide_eq_true_eq] at hp
  exact hp.1

theorem miscOnly_not_priority {l : List String} {s : String}
    (h : s ∈ miscOnly l) : s ∉ priorityList := by
  have hp := List.of_mem_filter h
  simp only [decide_eq_true_eq] at hp
  exact hp.1

theorem get_status_shape (ct : List String) :
    (¬(miscOnly (mappedStatuses ct) ≠ [] ∧
        (resultAfterCu (mappedStatuses ct) = [] ∨
          resultAfterCu (mappedStatuses ct) = ["close"])) →
      get_status_from_categories ct = resultAfterCu (mappedStatuses ct)) ∧
    (miscOnly (mappedStatuses ct) ≠ [] ∧
        (resultAfterCu (mappedStatuses ct) = [] ∨
          resultAfterCu (mappedStatuses ct) = ["close"]) →
      ∃ m, get_status_from_categories ct = resultAfterCu (mappedStatuses ct) ++ [m] ∧
        m ∈ miscOnly (mappedStatuses ct) ∧
        ∀ s ∈ miscOnly (mappedStatuses ct),
          (miscRank m).getD 99 ≤ (miscRank s).getD 99) := by
  simp only [get_status_from_categories]
  cases hmi : miscOnly (mappedStatuses ct) with
  | nil =>
    refine ⟨fun _ => rfl, fun hc => absurd rfl hc.1⟩
  | cons x xs =>
    split_ifs with hg
    · refine ⟨fun hc => absurd ⟨List.cons_ne_nil x xs, hg⟩ hc, fun _ => ?_⟩
      refine ⟨minByKey (fun s => (miscRank s).getD 99) x xs, rfl, ?_, ?_⟩
      · exact minByKey_mem (fun s => (miscRank s).getD 99) x xs
      · exact minByKey_le (fun s => (miscRank s).getD 99) x xs
    · exact ⟨fun _ => rfl, fun hc => absurd hc.2 hg⟩

theorem filter_resultAfterCu (l : List String) :
    (resultAfterCu l).filter (fun s => decide (s ∈ priorityList)) = prioritySelected l := by
  unfold resultAfterCu
  rw [List.filter_append]
  have h1 : (prioritySelected l).filter (fun s => decide (s ∈ priorityList)) =
      prioritySelected l := by
    apply List.filter_eq_self.mpr
    intro a ha
    simp only [prioritySelected] at ha
    exact (List.mem_filter.mp ha).2
  rw [h1]
  cases hcu : curequestOnly l with
  | nil => simp
  | cons x xs =>
    have hm : minByKey (fun s => (curequestRank s).getD 99) x xs ∈ curequestOnly l := by
      rw [hcu]
      exact minByKey_mem (fun s => (curequestRank s).getD 99) x xs
    have hnp := curequestOnly_not_priority hm
    simp [hnp]

/-- C2 counterexample: with the archive tag supplied before the
administrator tag the resolver emits close before admin, so the
always-shown statuses do not keep the fixed relative order
admin, clerk, checked, close irrespective of tag order. -/
theorem resolver_order_counterexample :
    get_status_from_categories
        ["SPI cases awaiting archive", "SPI cases needing an Administrator"] =
      ["close", "admin"] ∧
    get_status_from_categories
        ["SPI cases awaiting archive", "SPI cases needing an Administrator"] ≠
      ["admin", "close"] :=
  ⟨by decide, by decide⟩

/-- C2 amended: every always-shown status whose tag was mapped appears in
the resolver's output, unconditionally; the always-shown statuses appear
in the order in which their tags were supplied (the always-shown
sub-sequence of the output is exactly the always-shown sub-sequence of the
mapped statuses), not in a fixed relative order. -/
theorem resolver_always_shown (ct : List String) :
    (∀ s ∈ mappedStatuses ct, s ∈ priorityList → s ∈ get_status_from_categories ct) ∧
    (get_status_from_categories ct).filter (fun s => decide (s ∈ priorityList)) =
      prioritySelected (mappedStatuses ct) := by
  have hf : (get_status_from_categories ct).filter (fun s => decide (s ∈ priorityList)) =
      prioritySelected (mappedStatuses ct) := by
    by_cases hc : miscOnly (mappedStatuses ct) ≠ [] ∧
        (resultAfterCu (mappedStatuses ct) = [] ∨
          resultAfterCu (mappedStatuses ct) = ["close"])
    · obtain ⟨m, hm_eq, hm_mem, _⟩ := (get_status_shape ct).2 hc
      rw [hm_eq, List.filter_append]
      have hnp := miscOnly_not_priority hm_mem
      simp [filter_resultAfterCu, hnp]
    · rw [(get_status_shape ct).1 hc]
      exact filter_resultAfterCu _
  refine ⟨?_, hf⟩
  intro s hs hp
  have hmem : s ∈ prioritySelected (mappedStatuses ct) :=
    List.mem_filter.mpr ⟨hs, by simpa using hp⟩
  rw [← hf] at hmem
  exact List.mem_of_mem_filter hmem

theorem resolver_always_shown_witness :
    ("close" : String) ∈ mappedStatuses
        ["SPI cases awaiting archive", "SPI cases needing an Administrator"] ∧
      ("close" : String) ∈ get_status_from_categories
        ["SPI cases awaiting archive", "SPI cases needing an Administrator"] :=
  ⟨by decide,
    (resolver_always_shown
        ["SPI cases awaiting archive", "SPI cases needing an Administrator"]).1
      "close" (by decide) (by decide)⟩

/-- C3: the resolver appends one misc-class status — one of minimum misc
rank among those mapped — exactly when at least one misc-class status was
mapped and the result accumulated so far (always-shown plus any pipeline
status) is empty or exactly the singleton close; otherwise the accumulated
result is returned unchanged. -/
theorem resolver_misc_minimum (ct : List String) :
    (miscOnly (mappedStatuses ct) ≠ [] ∧
        (resultAfterCu (mappedStatuses ct) = [] ∨
          resultAfterCu (mappedStatuses ct) = ["close"]) →
      ∃ m rm, get_status_from_categories ct = resultAfterCu (mappedStatuses ct) ++ [m] ∧
        m ∈ miscOnly (mappedStatuses ct) ∧ miscRank m = some rm ∧
        ∀ s ∈ miscOnly (mappedStatuses ct), ∃ rs, miscRank s = some rs ∧ rm ≤ rs) ∧
    (¬(miscOnly (mappedStatuses ct) ≠ [] ∧
        (resultAfterCu (mappedStatuses ct) = [] ∨
          resultAfterCu (mappedStatuses ct) = ["close"])) →
      get_status_from_categories ct = resultAfterCu (mappedStatuses ct)) := by
  refine ⟨?_, (get_status_shape ct).1⟩
  intro hc
  obtain ⟨m, hm_eq, hm_mem, hm_min⟩ := (get_status_shape ct).2 hc
  have hms : (miscRank m).isSome := by
    have hp := List.of_mem_filter hm_mem
    simp only [decide_eq_true_eq] at hp
    exact hp.2.2
  obtain ⟨rm, hrm⟩ := Option.isSome_iff_exists.mp hms
  refine ⟨m, rm, hm_eq, hm_mem, hrm, ?_⟩
  intro s hs
  have hss : (miscRank s).isSome := by
    have hp := List.of_mem_filter hs
    simp only [decide_eq_true_eq] at hp
    exact hp.2.2
  obtain ⟨rs, hrs⟩ := Option.isSome_iff_exists.mp hss
  have hle := hm_min s hs
  rw [hrm, hrs] at hle
  exact ⟨rs, hrs, by simpa using hle⟩

theorem resolver_misc_minimum_witness :
    ∃ m rm,
      get_status_from_categories
          ["SPI cases awaiting archive", "New SPI cases", "SPI cases awaiting review"] =
        resultAfterCu (mappedStatuses
          ["SPI cases awaiting archive", "New SPI cases", "SPI cases awaiting review"]) ++
          [m] ∧
      m ∈ miscOnly (mappedStatuses
        ["SPI cases awaiting archive", "New SPI cases", "SPI cases awaiting review"]) ∧
      miscRank m = some rm ∧
      ∀ s ∈ miscOnly (mappedStatuses
          ["SPI cases awaiting archive", "New SPI cases", "SPI cases awaiting review"]),
        ∃ rs, miscRank s = some rs ∧ rm ≤ rs :=
  (resolver_misc_minimum
      ["SPI cases awaiting archive", "New SPI cases", "SPI cases awaiting review"]).1
    (by decide)

theorem buildRecords_eq_map (d : CaseDetails) :
    buildRecords d = d.status.map (caseRecordOf d) := by
  unfold buildRecords
  cases hs : d.status with
  | nil => simp
  | cons s ss =>
    cases ss with
    | nil => simp
    | cons s2 ss2 => simp

/-- C7: for one case the builder emits one record per resolved status, all
records sharing every field of the case except the status; a case with no
status emits nothing; and the batch loop appends each case's records and
continues with the remaining cases. -/
theorem collect_cases_fanout (d : CaseDetails) (ds : List CaseDetails) :
    buildRecords d = d.status.map (caseRecordOf d) ∧
    (buildRecords d).length = d.status.length ∧
    (∀ r ∈ buildRecords d, r.name = d.name ∧ r.file_time = d.file_time ∧
      r.last_user = d.last_user ∧ r.last_user_time = d.last_user_time ∧
      r.last_clerk = d.last_clerk ∧ r.last_clerk_time = d.last_clerk_time ∧
      r.status ∈ d.status) ∧
    collectCases (d :: ds) = buildRecords d ++ collectCases ds := by
  refine ⟨buildRecords_eq_map d, ?_, ?_, rfl⟩
  · rw [buildRecords_eq_map d, List.length_map]
  · intro r hr
    rw [buildRecords_eq_map d] at hr
    obtain ⟨s, hs, rfl⟩ := List.mem_map.mp hr
    exact ⟨rfl, rfl, rfl, rfl, rfl, rfl, hs⟩

theorem collect_cases_fanout_witness :
    (buildRecords dAB).length = dAB.status.length ∧
    collectCases [dAB] = buildRecords dAB ++ collectCases [] :=
  ⟨(collect_cases_fanout dAB []).2.1, (collect_cases_fanout dAB []).2.2.2⟩

theorem findTime_eq_head (h : String → Option String) (ls : List String) :
    findTime h ls = (ls.filterMap h).head? := by
  induction ls with
  | nil => rfl
  | cons l ls ih => cases hl : h l <;> simp [findTime, hl, ih, List.filterMap_cons]

/-- C8: the extracted file time is determined by the first line whose
heuristic match succeeds, later matches being ignored, and — whenever the
heuristic never produces the literal sentinel — the output is Unknown
exactly when no line of the text matches; the extractor is a total
function, so no input can make it error. -/
theorem file_time_first_match (h : String → Option String) (text : String) :
    get_file_time h text = ((text.splitOn "\n").filterMap h).headD "Unknown" ∧
    ((∀ l t, h l = some t → t ≠ "Unknown") →
      (get_file_time h text = "Unknown" ↔ ∀ l ∈ text.splitOn "\n", h l = none)) := by
  have h1 : get_file_time h text = ((text.splitOn "\n").filterMap h).headD "Unknown" := by
    unfold get_file_time
    rw [findTime_eq_head, List.headD_eq_head?_getD]
    cases ((text.splitOn "\n").filterMap h).head? with
    | none => rfl
    | some t => rfl
  refine ⟨h1, fun hno => ⟨?_, ?_⟩⟩
  · intro he
    rw [← List.filterMap_eq_nil_iff]
    cases hfm : (text.splitOn "\n").filterMap h with
    | nil => rfl
    | cons t ts =>
      exfalso
      rw [h1, hfm] at he
      simp only [List.headD_cons] at he
      obtain ⟨l, _, hl⟩ := List.mem_filterMap.mp (hfm ▸ List.mem_cons_self t ts)
      exact hno l t hl he
  · intro hall
    rw [h1, List.filterMap_eq_nil_iff.mpr hall]
    rfl

theorem file_time_first_match_witness :
    (∀ l t, sigHeuristic l = some t → t ≠ "Unknown") ∧
    (get_file_time sigHeuristic "intro\nfiled line\nfiled line" =
      (("intro\nfiled line\nfiled line".splitOn "\n").filterMap sigHeuristic).headD
        "Unknown") ∧
    (get_file_time sigHeuristic "no\nmatch" = "Unknown" ↔
      ∀ l ∈ "no\nmatch".splitOn "\n", sigHeuristic l = none) := by
  have hno : ∀ l t, sigHeuristic l = some t → t ≠ "Unknown" := by
    intro l t ht
    unfold sigHeuristic at ht
    split_ifs at ht
    injection ht with hv
    rw [← hv]
    decide
  exact ⟨hno, (file_time_first_match sigHeuristic "intro\nfiled line\nfiled line").1,
    (file_time_first_match sigHeuristic "no\nmatch").2 hno⟩

theorem filter_insertionSort_key (k : Nat × String) (l : List Case) :
    (List.insertionSort caseLE l).filter (fun c => decide (sortKeyPair c = k)) =
      l.filter (fun c => decide (sortKeyPair c = k)) := by
  induction l with
  | nil => rfl
  | cons a l ih =>
    have hsplit : List.insertionSort caseLE l =
        ((List.insertionSort caseLE l).takeWhile fun b => decide ¬(caseLE a b)) ++
          (List.insertionSort caseLE l).dropWhile fun b => decide ¬(caseLE a b) :=
      (List.takeWhile_append_dropWhile _ _).symm
    rw [List.insertionSort_cons_eq_take_drop, List.filter_append]
    by_cases hk : sortKeyPair a = k
    · have htake : (((List.insertionSort caseLE l).takeWhile
            fun b => decide ¬(caseLE a b)).filter
            (fun c => decide (sortKeyPair c = k))) = [] := by
        rw [List.filter_eq_nil_iff]
        intro c hc
        have hpred := List.mem_takeWhile_imp hc
        simp only [decide_eq_true_eq] at hpred ⊢
        intro hck
        exact hpred (by unfold caseLE; rw [hck, hk])
      have hdrop : (((List.insertionSort caseLE l).dropWhile
            fun b => decide ¬(caseLE a b)).filter
            (fun c => decide (sortKeyPair c = k))) =
          l.filter (fun c => decide (sortKeyPair c = k)) := by
        have hih := ih
        rw [hsplit, List.filter_append, htake, List.nil_append] at hih
        exact hih
      rw [htake, List.nil_append, List.filter_cons, List.filter_cons]
      split_ifs with hcond
      · exact congrArg (a :: ·) hdrop
      · exact absurd (decide_eq_true hk) hcond
    · rw [List.filter_cons, List.filter_cons]
      split_ifs with hcond
      · exact absurd (of_decide_eq_true hcond) hk
      · rw [← List.filter_append, ← hsplit]
        exact ih

/-- C6: whatever list sort_cases accepts it sorts into a permutation that
is ascending for the lexicographic (status rank, filing time string) key —
the Unknown sentinel participating in ordinary string comparison — and the
sort is stable: for every key value, the records carrying that key appear
in the output in their input order. -/
theorem sort_cases_sorted_stable (cases out : List Case)
    (h : sort_cases cases = some out) :
    List.Perm out cases ∧ List.Sorted caseLE out ∧
    ∀ k : Nat × String,
      out.filter (fun c => decide (sortKeyPair c = k)) =
        cases.filter (fun c => decide (sortKeyPair c = k)) := by
  have hout : out = List.insertionSort caseLE cases := by
    unfold sort_cases at h
    split_ifs at h with hall
    exact (Option.some.inj h).symm
  subst hout
  exact ⟨List.perm_insertionSort caseLE cases, List.sorted_insertionSort caseLE cases,
    fun k => filter_insertionSort_key k cases⟩

theorem sort_cases_sorted_stable_witness :
    List.Perm [cB, cA] [cA, cB] ∧ List.Sorted caseLE [cB, cA] ∧
    ([cB, cA].filter fun c => decide (sortKeyPair c = (16, "2024-01-02 00:00"))) =
      ([cA, cB].filter fun c => decide (sortKeyPair c = (16, "2024-01-02 00:00"))) :=
  ⟨(sort_cases_sorted_stable [cA, cB] [cB, cA] (by decide)).1,
    (sort_cases_sorted_stable [cA, cB] [cB, cA] (by decide)).2.1,
    (sort_cases_sorted_stable [cA, cB] [cB, cA] (by decide)).2.2 (16, "2024-01-02 00:00")⟩

/-- C10: sorting the built records together with the externally injected
checkuser-needed records succeeds exactly when every built record's status
is one of the 17 ranked codes — a record with any other status makes the
sort undefined — and every injected record's status is the ranked code
QUICK, so injected records never break totality. -/
theorem sort_cases_total_iff (cases : List Case) (cuPages : List CuPage) :
    ((sort_cases (cases ++ get_cu_needed_templates cuPages)).isSome ↔
      ∀ c ∈ cases, (statusRank c.status).isSome) ∧
    (∀ c ∈ get_cu_needed_templates cuPages, c.status = "QUICK") := by
  have hquick : ∀ c ∈ get_cu_needed_templates cuPages, c.status = "QUICK" := by
    intro c hc
    simp only [get_cu_needed_templates, List.mem_map] at hc
    obtain ⟨p, hp, rfl⟩ := hc
    rfl
  refine ⟨?_, hquick⟩
  have hiff : (cases ++ get_cu_needed_templates cuPages).all
      (fun c => (statusRank c.status).isSome) = true ↔
      ∀ c ∈ cases, (statusRank c.status).isSome := by
    rw [List.all_eq_true]
    constructor
    · intro hall c hc
      exact hall c (List.mem_append_left _ hc)
    · intro hforall c hc
      rcases List.mem_append.mp hc with h | h
      · exact hforall c h
      · rw [hquick c h]
        rfl
  unfold sort_cases
  split_ifs with hall
  · simpa using hiff.mp hall
  · simpa using fun hfa => hall (hiff.mpr hfa)

theorem sort_cases_total_iff_witness :
    ((sort_cases ([cA] ++
        get_cu_needed_templates [⟨"T", 0, "2024-02-02 00:00"⟩])).isSome) ∧
    (∀ c ∈ get_cu_needed_templates [(⟨"T", 0, "2024-02-02 00:00"⟩ : CuPage)],
      c.status = "QUICK") :=
  ⟨(sort_cases_total_iff [cA] [⟨"T", 0, "2024-02-02 00:00"⟩]).1.mpr (by decide),
    (sort_cases_total_iff [cA] [⟨"T", 0, "2024-02-02 00:00"⟩]).2⟩

end SpiBot
